import Mathlib

/-!
Verification of the escaping-locals analysis of
`src/librustc_mir/borrow_check/nll/type_check/escaping_locals.rs`:
a MIR walk gathering a union-find of assigned locals, locating the ones
escaping into the output (the return place, local 0).

The MIR data types (`Place`, `Operand`, `Rvalue`, `Mir`) and the
unification table live in other crates of the repository and are modelled
from the spec; the analysis functions (`find_local_in_place`,
`find_local_in_operand`, `union_locals_if_needed`, `visit_assign`,
`find_escaping_locals`) are translated directly from the source file.
-/

namespace EscapingLocals

/-- Modelled from the spec: `rustc::mir::Place` (not under `src/`), the §3
location expression.  `Local` is the direct slot case, `Projection` applies
a selector to a base location (the selector itself is never inspected by
this analysis, so it is omitted), and `Static` is a location not rooted in
a slot (the `_` arm of `find_local_in_place`). -/
inductive Place where
  | Local : Nat → Place
  | Projection : Place → Place
  | Static : Place
  deriving DecidableEq

/-- Modelled from the spec: `rustc::mir::Operand` (not under `src/`), the §3
value operand: `Copy(place)`, `Move(place)`, `Constant`. -/
inductive Operand where
  | Copy : Place → Operand
  | Move : Place → Operand
  | Constant : Operand
  deriving DecidableEq

/-- Modelled from the spec: `rustc::mir::CastKind` (not under `src/`); the
analysis distinguishes only `Unsize` from every other kind. -/
inductive CastKind where
  | Misc : CastKind
  | ReifyFnPointer : CastKind
  | ClosureFnPointer : CastKind
  | Unsize : CastKind
  deriving DecidableEq

/-- Modelled from the spec: `rustc::mir::Rvalue` (not under `src/`), the §3
value-producing expression.  `OtherRvalue` stands for every form the
analysis leaves opaque (`Repeat`, `Len`, `BinaryOp`, `Discriminant`, ...).
The region and borrow kind of `Ref`, the target type of `Cast` and the
aggregate kind are never inspected by the analysis and are omitted. -/
inductive Rvalue where
  | Use : Operand → Rvalue
  | Ref : Place → Rvalue
  | Cast : CastKind → Operand → Rvalue
  | Aggregate : List Operand → Rvalue
  | OtherRvalue : Rvalue
  deriving DecidableEq

/-- Modelled from the spec: a MIR statement.  The visitor reacts only to
assignments (`visit_assign`); every other statement kind is opaque. -/
inductive Statement where
  | Assign : Place → Rvalue → Statement
  | OtherStmt : Statement
  deriving DecidableEq

/-- Modelled from the spec: the procedure representation (`rustc::mir::Mir`,
not under `src/`): a count of declared local slots `0..local_decls-1`
(slot 0 is the return place) and ordered basic blocks of ordered
statements. -/
structure Mir where
  local_decls : Nat
  basic_blocks : List (List Statement)

/-- Modelled from the spec: the union-find state
(`rustc_data_structures::unify::UnificationTable`, not under `src/`).  The
state is represented by its representative function on slot indices; the
fresh table of singleton sets is the identity. -/
def uf_init : Nat → Nat := fun x => x

/-- Modelled from the spec: `union(a, b)` merges the set containing `a`
with the set containing `b` (here: everything represented like `a` becomes
represented like `b`). -/
def uf_union (a b : Nat) (f : Nat → Nat) : Nat → Nat :=
  fun x => if f x = f a then f b else f x

/-- Modelled from the spec: `unioned(a, b)` / `same_set(a, b)` tests
whether `a` and `b` currently share a set. -/
def unioned (f : Nat → Nat) (a b : Nat) : Bool :=
  decide (f a = f b)

/-- `u32::MAX` as a natural number. -/
def u32_max : Nat := 4294967295

/-- `From<Local> for AssignedLocal` from the source file: asserts that the
index is strictly below `u32::MAX` before truncating to `u32`; the failed
assertion (an abort) is modelled as `none`. -/
def assigned_local_from (item : Nat) : Option Nat :=
  if item < u32_max then some item else none

/-- `find_local_in_place` from the source file: the potential local
associated to this place — the local itself, the local of a projection's
base, or `none` for any other place. -/
def find_local_in_place : Place → Option Nat
  | Place.Local l => some l
  | Place.Projection base => find_local_in_place base
  | Place.Static => none

/-- `find_local_in_operand` from the source file: the potential local in
this operand; only `Move` operands are inspected, every other operand
yields `none`. -/
def find_local_in_operand : Operand → Option Nat
  | Operand.Move place => find_local_in_place place
  | _ => none

/-- `GatherAssignedLocalsVisitor::union_locals_if_needed` from the source
file: union the two locals only when both are present and distinct. -/
def union_locals_if_needed (lvalue rvalue : Option Nat) (f : Nat → Nat) : Nat → Nat :=
  match lvalue, rvalue with
  | some lv, some rv => if lv ≠ rv then uf_union lv rv f else f
  | _, _ => f

/-- `visit_assign` from the source file: dispatch on the right-hand side,
unioning the destination local with each source local the tracked subset
of rvalue forms can resolve. -/
def visit_assign (place : Place) (rvalue : Rvalue) (f : Nat → Nat) : Nat → Nat :=
  let lcl := find_local_in_place place
  match rvalue with
  | Rvalue.Use op => union_locals_if_needed lcl (find_local_in_operand op) f
  | Rvalue.Ref p => union_locals_if_needed lcl (find_local_in_place p) f
  | Rvalue.Cast kind op =>
    match kind with
    | CastKind.Unsize => union_locals_if_needed lcl (find_local_in_operand op) f
    | _ => f
  | Rvalue.Aggregate ops =>
    ops.foldl (fun g op => union_locals_if_needed lcl (find_local_in_operand op) g) f
  | Rvalue.OtherRvalue => f

/-- One step of the MIR walk: `super_mir` fires `visit_assign` on each
assignment statement in stored order; any other statement leaves the
state unchanged. -/
def visit_statement (f : Nat → Nat) (s : Statement) : Nat → Nat :=
  match s with
  | Statement.Assign place rvalue => visit_assign place rvalue f
  | Statement.OtherStmt => f

/-- `visit_mir` from the source file: allocate one key per declared local
(in the representative-function model the fresh singleton sets are the
identity) and walk every block and statement in order. -/
def visit_mir (mir : Mir) : Nat → Nat :=
  mir.basic_blocks.foldl (fun f blk => blk.foldl visit_statement f) uf_init

/-- `find_escaping_locals` (the `FindEscapingLocals` impl for `Mir`) from
the source file: run the gathering visitor, then collect, in ascending
index order, every non-return declared local that is unioned with the
return place. -/
def find_escaping_locals (mir : Mir) : List Nat :=
  (List.range mir.local_decls).filter
    (fun l => decide (l ≠ 0) && unioned (visit_mir mir) 0 l)

/-- The optional source locals a right-hand side contributes, in visit
order (untracked forms contribute nothing). -/
def rvalue_sources : Rvalue → List (Option Nat)
  | Rvalue.Use op => [find_local_in_operand op]
  | Rvalue.Ref p => [find_local_in_place p]
  | Rvalue.Cast CastKind.Unsize op => [find_local_in_operand op]
  | Rvalue.Cast _ _ => []
  | Rvalue.Aggregate ops => ops.map find_local_in_operand
  | Rvalue.OtherRvalue => []

/-- The union actually performed by `union_locals_if_needed`, if any. -/
def union_pair (lvalue rvalue : Option Nat) : List (Nat × Nat) :=
  match lvalue, rvalue with
  | some lv, some rv => if lv ≠ rv then [(lv, rv)] else []
  | _, _ => []

/-- The union-find merges one statement performs, in order. -/
def statement_pairs : Statement → List (Nat × Nat)
  | Statement.Assign place rvalue =>
    (rvalue_sources rvalue).flatMap (union_pair (find_local_in_place place))
  | Statement.OtherStmt => []

/-- All statements of a procedure, in visit order. -/
def all_statements (mir : Mir) : List Statement :=
  mir.basic_blocks.flatten

/-- All union-find merges the walk of a procedure performs, in order. -/
def mir_pairs (mir : Mir) : List (Nat × Nat) :=
  (all_statements mir).flatMap statement_pairs

/-- Applying a list of merges to a union-find state, first merge first. -/
def apply_pairs (ps : List (Nat × Nat)) (f : Nat → Nat) : Nat → Nat :=
  ps.foldl (fun g p => uf_union p.1 p.2 g) f

/-- The one-step flow relation of a procedure: the pair `(a, b)` was
merged by some visited assignment. -/
def pair_rel (mir : Mir) (a b : Nat) : Prop :=
  (a, b) ∈ mir_pairs mir

/-- Whether a statement is an assignment. -/
def is_assign : Statement → Bool
  | Statement.Assign _ _ => true
  | Statement.OtherStmt => false

/-- Every local index the analysis passes through `AssignedLocal::from`:
both ends of each performed union, plus every non-return declared local
tested by the final loop. -/
def converted_locals (mir : Mir) : List Nat :=
  (mir_pairs mir).flatMap (fun p => [p.1, p.2]) ++
    (List.range mir.local_decls).filter (fun l => decide (l ≠ 0))

/-- Well-formedness of the input (§7): every local a performed union
touches lies inside the declared slot table. -/
def mir_wf (mir : Mir) : Bool :=
  (mir_pairs mir).all (fun p => decide (p.1 < mir.local_decls) && decide (p.2 < mir.local_decls))

/-- The ultimate base of a place, stripping every projection. -/
def place_base : Place → Place
  | Place.Projection base => place_base base
  | Place.Local l => Place.Local l
  | Place.Static => Place.Static

/-- A function is a retraction when it is idempotent; every reachable
union-find representative function is one. -/
def retraction (f : Nat → Nat) : Prop :=
  ∀ x, f (f x) = f x

/-- The relation "same set under `f`, or merged by one of the pairs". -/
def rel_with (f : Nat → Nat) (ps : List (Nat × Nat)) (a b : Nat) : Prop :=
  f a = f b ∨ (a, b) ∈ ps

end EscapingLocals

namespace EscapingLocals

/-- The identity state is a retraction. -/
theorem uf_init_retraction : retraction uf_init :=
  fun _ => rfl

/-- A union step preserves being a retraction. -/
theorem uf_union_retraction (a b : Nat) (f : Nat → Nat) (hf : retraction f) :
    retraction (uf_union a b f) := by
  intro x
  simp only [uf_union]
  by_cases h : f x = f a
  · simp only [if_pos h, hf b]
    split <;> rfl
  · simp only [if_neg h, hf x, if_neg h]

/-- The equivalence closure of the kernel of a function is the kernel. -/
theorem eqvGen_ker (f : Nat → Nat) (x y : Nat) :
    Relation.EqvGen (fun a b => f a = f b) x y ↔ f x = f y := by
  constructor
  · intro h
    induction h with
    | rel a b h => exact h
    | refl a => rfl
    | symm a b h ih => exact ih.symm
    | trans a b c h1 h2 ih1 ih2 => exact ih1.trans ih2
  · intro h
    exact Relation.EqvGen.rel x y h

/-- Mapping a relation into the equivalence closure of another extends to
the whole closure. -/
theorem eqvGen_of_imp {r s : Nat → Nat → Prop}
    (h : ∀ u v, r u v → Relation.EqvGen s u v) :
    ∀ u v, Relation.EqvGen r u v → Relation.EqvGen s u v := by
  intro u v hr
  induction hr with
  | rel a b hab => exact h a b hab
  | refl a => exact Relation.EqvGen.refl a
  | symm a b hab ih => exact Relation.EqvGen.symm a b ih
  | trans a b c h1 h2 ih1 ih2 => exact Relation.EqvGen.trans a b c ih1 ih2

/-- After one union step, the combined relation stays inside the closure of
the relation with the merged pair recorded. -/
theorem rel_with_step_fwd (a b : Nat) (f : Nat → Nat) (ps : List (Nat × Nat))
    (u v : Nat) (h : rel_with (uf_union a b f) ps u v) :
    Relation.EqvGen (rel_with f ((a, b) :: ps)) u v := by
  rcases h with h | h
  · simp only [uf_union] at h
    by_cases hu : f u = f a <;> by_cases hv : f v = f a
    · exact Relation.EqvGen.rel u v (Or.inl (hu.trans hv.symm))
    · rw [if_pos hu, if_neg hv] at h
      have h1 : Relation.EqvGen (rel_with f ((a, b) :: ps)) u a :=
        Relation.EqvGen.rel u a (Or.inl hu)
      have h2 : Relation.EqvGen (rel_with f ((a, b) :: ps)) a b :=
        Relation.EqvGen.rel a b (Or.inr (List.mem_cons_self _ _))
      have h3 : Relation.EqvGen (rel_with f ((a, b) :: ps)) b v :=
        Relation.EqvGen.rel b v (Or.inl h)
      exact Relation.EqvGen.trans u a v h1 (Relation.EqvGen.trans a b v h2 h3)
    · rw [if_neg hu, if_pos hv] at h
      have h1 : Relation.EqvGen (rel_with f ((a, b) :: ps)) u b :=
        Relation.EqvGen.rel u b (Or.inl h)
      have h2 : Relation.EqvGen (rel_with f ((a, b) :: ps)) b a :=
        Relation.EqvGen.symm a b (Relation.EqvGen.rel a b (Or.inr (List.mem_cons_self _ _)))
      have h3 : Relation.EqvGen (rel_with f ((a, b) :: ps)) a v :=
        Relation.EqvGen.rel a v (Or.inl hv.symm)
      exact Relation.EqvGen.trans u b v h1 (Relation.EqvGen.trans b a v h2 h3)
    · rw [if_neg hu, if_neg hv] at h
      exact Relation.EqvGen.rel u v (Or.inl h)
  · exact Relation.EqvGen.rel u v (Or.inr (List.mem_cons_of_mem _ h))

/-- Conversely, the relation with the merged pair recorded stays inside the
closure of the combined relation after the union step. -/
theorem rel_with_step_bwd (a b : Nat) (f : Nat → Nat) (ps : List (Nat × Nat))
    (u v : Nat) (h : rel_with f ((a, b) :: ps) u v) :
    Relation.EqvGen (rel_with (uf_union a b f) ps) u v := by
  rcases h with h | h
  · refine Relation.EqvGen.rel u v (Or.inl ?_)
    simp only [uf_union, h]
  · rcases List.mem_cons.mp h with h | h
    · cases h
      refine Relation.EqvGen.rel a b (Or.inl ?_)
      show (if f a = f a then f b else f a) = if f b = f a then f b else f b
      rw [if_pos rfl]
      split <;> rfl
    · exact Relation.EqvGen.rel u v (Or.inr h)

/-- The kernel of the state after applying a list of merges is the
equivalence closure of the initial kernel joined with the merged pairs. -/
theorem apply_pairs_ker (ps : List (Nat × Nat)) :
    ∀ f : Nat → Nat, retraction f → ∀ x y : Nat,
      (apply_pairs ps f x = apply_pairs ps f y ↔ Relation.EqvGen (rel_with f ps) x y) := by
  induction ps with
  | nil =>
    intro f hf x y
    constructor
    · intro h
      exact Relation.EqvGen.rel x y (Or.inl h)
    · intro h
      refine (eqvGen_ker f x y).mp (eqvGen_of_imp ?_ x y h)
      intro u v huv
      exact Relation.EqvGen.rel u v (huv.resolve_right (List.not_mem_nil _))
  | cons p rest ih =>
    obtain ⟨a, b⟩ := p
    intro f hf x y
    have step : apply_pairs ((a, b) :: rest) f = apply_pairs rest (uf_union a b f) := rfl
    rw [step, ih (uf_union a b f) (uf_union_retraction a b f hf)]
    constructor
    · exact fun h => eqvGen_of_imp (rel_with_step_fwd a b f rest) x y h
    · exact fun h => eqvGen_of_imp (rel_with_step_bwd a b f rest) x y h

end EscapingLocals

namespace EscapingLocals

/-- Appending merge lists composes their application. -/
theorem apply_pairs_append (l1 l2 : List (Nat × Nat)) (f : Nat → Nat) :
    apply_pairs (l1 ++ l2) f = apply_pairs l2 (apply_pairs l1 f) :=
  List.foldl_append _ _ _ _

/-- A conditional union is the application of its recorded pair. -/
theorem union_locals_eq_apply (lv rv : Option Nat) (g : Nat → Nat) :
    union_locals_if_needed lv rv g = apply_pairs (union_pair lv rv) g := by
  cases lv with
  | none => cases rv <;> rfl
  | some a =>
    cases rv with
    | none => rfl
    | some b =>
      simp only [union_locals_if_needed, union_pair]
      split <;> rfl

/-- Folding conditional unions over a source list is the application of
the recorded pairs. -/
theorem foldl_union_sources (dst : Option Nat) (srcs : List (Option Nat)) (f : Nat → Nat) :
    srcs.foldl (fun g s => union_locals_if_needed dst s g) f =
      apply_pairs (srcs.flatMap (union_pair dst)) f := by
  induction srcs generalizing f with
  | nil => rfl
  | cons s rest ih =>
    rw [List.foldl_cons, List.flatMap_cons, apply_pairs_append, ih,
      union_locals_eq_apply]

/-- `visit_assign` folds the conditional unions over the sources its
right-hand side contributes. -/
theorem visit_assign_sources (place : Place) (rvalue : Rvalue) (f : Nat → Nat) :
    visit_assign place rvalue f =
      (rvalue_sources rvalue).foldl
        (fun g s => union_locals_if_needed (find_local_in_place place) s g) f := by
  cases rvalue with
  | Use op => rfl
  | Ref p => rfl
  | Cast kind op => cases kind <;> rfl
  | Aggregate ops =>
    show ops.foldl _ f = _
    rw [rvalue_sources, List.foldl_map]
  | OtherRvalue => rfl

/-- One statement's effect is the application of its recorded pairs. -/
theorem visit_statement_eq_apply (f : Nat → Nat) (s : Statement) :
    visit_statement f s = apply_pairs (statement_pairs s) f := by
  cases s with
  | Assign place rvalue =>
    rw [visit_statement, visit_assign_sources, statement_pairs,
      foldl_union_sources]
  | OtherStmt => rfl

/-- A statement list's effect is the application of its recorded pairs. -/
theorem foldl_statements_eq_apply (stmts : List Statement) (f : Nat → Nat) :
    stmts.foldl visit_statement f = apply_pairs (stmts.flatMap statement_pairs) f := by
  induction stmts generalizing f with
  | nil => rfl
  | cons s rest ih =>
    rw [List.foldl_cons, List.flatMap_cons, apply_pairs_append, ih,
      visit_statement_eq_apply]

/-- The whole walk is the application of the procedure's merge list to the
fresh state. -/
theorem visit_mir_eq_apply (mir : Mir) :
    visit_mir mir = apply_pairs (mir_pairs mir) uf_init := by
  rw [visit_mir, mir_pairs, all_statements, ← foldl_statements_eq_apply,
    List.foldl_flatten]

/-- Dropping the definitional-equality disjunct of the fresh kernel does
not change the equivalence closure. -/
theorem eqvGen_rel_with_init (ps : List (Nat × Nat)) (x y : Nat) :
    Relation.EqvGen (rel_with uf_init ps) x y ↔
      Relation.EqvGen (fun a b => (a, b) ∈ ps) x y := by
  constructor
  · refine eqvGen_of_imp ?_ x y
    intro u v huv
    rcases huv with h | h
    · have h2 : u = v := h
      exact h2 ▸ Relation.EqvGen.refl u
    · exact Relation.EqvGen.rel u v h
  · exact fun h => Relation.EqvGen.mono (fun a b hab => Or.inr hab) h

/-- Two locals share a set after the walk exactly when the merged pairs
connect them. -/
theorem visit_mir_ker (mir : Mir) (x y : Nat) :
    visit_mir mir x = visit_mir mir y ↔ Relation.EqvGen (pair_rel mir) x y := by
  rw [visit_mir_eq_apply,
    apply_pairs_ker (mir_pairs mir) uf_init uf_init_retraction x y]
  exact eqvGen_rel_with_init (mir_pairs mir) x y

/-- Membership in the output of the analysis: a declared, non-return local
whose merge chain reaches the return place. -/
theorem mem_find_escaping_locals (mir : Mir) (l : Nat) :
    l ∈ find_escaping_locals mir ↔
      l < mir.local_decls ∧ l ≠ 0 ∧ Relation.EqvGen (pair_rel mir) 0 l := by
  rw [find_escaping_locals, List.mem_filter, List.mem_range]
  simp only [unioned, Bool.and_eq_true, decide_eq_true_eq, and_assoc,
    visit_mir_ker]

end EscapingLocals

namespace EscapingLocals

/-- The equivalence closure of an empty relation only relates equals. -/
theorem eqvGen_eq_of_no_rel {r : Nat → Nat → Prop} (h : ∀ a b, ¬ r a b)
    (x y : Nat) (hxy : Relation.EqvGen r x y) : x = y := by
  induction hxy with
  | rel a b hab => exact absurd hab (h a b)
  | refl a => rfl
  | symm a b hab ih => exact ih.symm
  | trans a b c h1 h2 ih1 ih2 => exact ih1.trans ih2

/-- A permutation of the assignment statements transports merged pairs. -/
theorem mem_pairs_of_perm {l1 l2 : List Statement}
    (hp : (l1.filter is_assign).Perm (l2.filter is_assign))
    {p : Nat × Nat} (h : p ∈ l1.flatMap statement_pairs) :
    p ∈ l2.flatMap statement_pairs := by
  rcases List.mem_flatMap.mp h with ⟨s, hs, hps⟩
  have ha : is_assign s = true := by
    cases s with
    | Assign place rvalue => rfl
    | OtherStmt => simp [statement_pairs] at hps
  have h1 : s ∈ l1.filter is_assign := List.mem_filter.mpr ⟨hs, ha⟩
  have h2 : s ∈ l2.filter is_assign := hp.mem_iff.mp h1
  exact List.mem_flatMap.mpr ⟨s, (List.mem_filter.mp h2).1, hps⟩

/-- The move chain `0 = move 1; 1 = move 2; 2 = move 3` with four slots. -/
def chain_mir : Mir :=
  ⟨4, [[Statement.Assign (Place.Local 0) (Rvalue.Use (Operand.Move (Place.Local 1))),
        Statement.Assign (Place.Local 1) (Rvalue.Use (Operand.Move (Place.Local 2))),
        Statement.Assign (Place.Local 2) (Rvalue.Use (Operand.Move (Place.Local 3)))]]⟩

/-- The single copy assignment `0 = copy 1` with two slots. -/
def copy_mir : Mir :=
  ⟨2, [[Statement.Assign (Place.Local 0) (Rvalue.Use (Operand.Copy (Place.Local 1)))]]⟩

/-- The single non-unsizing cast `0 = Cast(Misc, move 1, T)` with two
slots. -/
def cast_mir : Mir :=
  ⟨2, [[Statement.Assign (Place.Local 0)
          (Rvalue.Cast CastKind.Misc (Operand.Move (Place.Local 1)))]]⟩

/-- The aggregate assignment `0 = Aggregate(move 1, move 2)` with three
slots. -/
def agg_mir : Mir :=
  ⟨3, [[Statement.Assign (Place.Local 0)
          (Rvalue.Aggregate [Operand.Move (Place.Local 1),
                             Operand.Move (Place.Local 2)])]]⟩

/-- An aggregate whose elements only partly resolve: a constant and a copy
are skipped while the two moves still produce their unions. -/
def agg_mir2 : Mir :=
  ⟨3, [[Statement.Assign (Place.Local 0)
          (Rvalue.Aggregate [Operand.Constant,
                             Operand.Move (Place.Local 1),
                             Operand.Copy (Place.Local 2),
                             Operand.Move (Place.Local 2)])]]⟩

/-- C1: for every procedure, the sequence returned by
`find_escaping_locals` never contains the return slot (index 0), contains
no duplicate indices, and is sorted in ascending index order. -/
theorem claim_C1 (mir : Mir) :
    0 ∉ find_escaping_locals mir ∧ (find_escaping_locals mir).Nodup ∧
      List.Sorted (· < ·) (find_escaping_locals mir) := by
  refine ⟨?_, ?_, ?_⟩
  · intro h
    rcases (mem_find_escaping_locals mir 0).mp h with ⟨-, h0, -⟩
    exact h0 rfl
  · exact List.Nodup.filter _ (List.nodup_range _)
  · exact List.Pairwise.filter _ (List.pairwise_lt_range _)

/-- C3: `find_local_in_operand` returns a slot only for a `Move` operand
(the slot its place resolves to); every `Copy` and `Constant` operand
yields `none`, so the procedure whose only assignment is `0 = copy 1`
yields an escaping set that excludes slot 1 (it is empty). -/
theorem claim_C3 :
    (∀ place, find_local_in_operand (Operand.Move place) = find_local_in_place place) ∧
    (∀ place, find_local_in_operand (Operand.Copy place) = none) ∧
    find_local_in_operand Operand.Constant = none ∧
    find_escaping_locals copy_mir = [] :=
  ⟨fun _ => rfl, fun _ => rfl, rfl, by decide⟩

/-- C5: a `Cast` assignment unions destination and operand exactly when
the cast kind is `Unsize`; for every other kind it is a no-op on the
union-find state, so `0 = Cast(Misc, move 1, T)` leaves slot 1 out of the
escaping set. -/
theorem claim_C5 :
    (∀ place kind op (f : Nat → Nat),
      visit_assign place (Rvalue.Cast kind op) f =
        if kind = CastKind.Unsize then
          union_locals_if_needed (find_local_in_place place) (find_local_in_operand op) f
        else f) ∧
    find_escaping_locals cast_mir = [] := by
  constructor
  · intro place kind op f
    cases kind <;> rfl
  · decide

/-- C6: an `Aggregate` assignment folds one independent conditional union
per element operand over the state; unresolved elements are skipped while
resolving ones still union, so `0 = Aggregate(move 1, move 2)` makes slots
1 and 2 escape, and so does the same aggregate with an interspersed
constant and copy. -/
theorem claim_C6 :
    (∀ place ops (f : Nat → Nat),
      visit_assign place (Rvalue.Aggregate ops) f =
        ops.foldl (fun g op =>
          union_locals_if_needed (find_local_in_place place) (find_local_in_operand op) g) f) ∧
    find_escaping_locals agg_mir = [1, 2] ∧
    find_escaping_locals agg_mir2 = [1, 2] :=
  ⟨fun _ _ _ => rfl, by decide, by decide⟩

/-- C8: `find_local_in_place` returns the slot itself for a direct local,
recurses through projections to the ultimate base, and returns `none` for
every place not rooted in a local. -/
theorem claim_C8 :
    (∀ l, find_local_in_place (Place.Local l) = some l) ∧
    (∀ base, find_local_in_place (Place.Projection base) = find_local_in_place base) ∧
    find_local_in_place Place.Static = none ∧
    (∀ place, find_local_in_place place =
      match place_base place with
      | Place.Local l => some l
      | _ => none) := by
  refine ⟨fun _ => rfl, fun _ => rfl, rfl, ?_⟩
  intro place
  induction place with
  | Local l => rfl
  | Projection base ih =>
    simpa only [find_local_in_place, place_base] using ih
  | Static => rfl

/-- C9: `union_locals_if_needed` returns the state unchanged whenever
either side is unresolved or both resolve to the same slot; a union is
performed exactly when both sides resolve to distinct slots. -/
theorem claim_C9 :
    (∀ lv rv (f : Nat → Nat), (lv = none ∨ rv = none ∨ lv = rv) →
      union_locals_if_needed lv rv f = f) ∧
    (∀ a b (f : Nat → Nat), a ≠ b →
      union_locals_if_needed (some a) (some b) f = uf_union a b f) := by
  constructor
  · intro lv rv f h
    rcases h with rfl | rfl | rfl
    · cases rv <;> rfl
    · cases lv <;> rfl
    · cases lv with
      | none => rfl
      | some a => simp [union_locals_if_needed]
  · intro a b f hab
    simp [union_locals_if_needed, hab]

/-- Witness for C9 at concrete inputs. -/
theorem claim_C9_witness :
    union_locals_if_needed (some 1) (some 1) uf_init = uf_init ∧
    union_locals_if_needed (some 1) (some 2) uf_init = uf_union 1 2 uf_init :=
  ⟨claim_C9.1 (some 1) (some 1) uf_init (Or.inr (Or.inr rfl)),
   claim_C9.2 1 2 uf_init (by decide)⟩

end EscapingLocals

namespace EscapingLocals

/-- C2: the move chain `0 = move 1; 1 = move 2; 2 = move 3` over four slots
escapes exactly `{1, 2, 3}`; in general merged pairs `(1,2)` and `(2,3)`
make slot 1 escape iff slot 3 does, and a slot escapes exactly when a
chain of merges connects it to the return slot. -/
theorem claim_C2 :
    find_escaping_locals chain_mir = [1, 2, 3] ∧
    (∀ mir : Mir, (1, 2) ∈ mir_pairs mir → (2, 3) ∈ mir_pairs mir →
      3 < mir.local_decls →
      (1 ∈ find_escaping_locals mir ↔ 3 ∈ find_escaping_locals mir)) ∧
    (∀ (mir : Mir) (l : Nat), l ∈ find_escaping_locals mir ↔
      l < mir.local_decls ∧ l ≠ 0 ∧ Relation.EqvGen (pair_rel mir) 0 l) := by
  refine ⟨by decide, ?_, mem_find_escaping_locals⟩
  intro mir h12 h23 h3
  have h13 : Relation.EqvGen (pair_rel mir) 1 3 :=
    Relation.EqvGen.trans 1 2 3 (Relation.EqvGen.rel 1 2 h12)
      (Relation.EqvGen.rel 2 3 h23)
  rw [mem_find_escaping_locals, mem_find_escaping_locals]
  constructor
  · rintro ⟨-, -, h01⟩
    exact ⟨h3, by decide, Relation.EqvGen.trans 0 1 3 h01 h13⟩
  · rintro ⟨-, -, h03⟩
    exact ⟨by omega, by decide,
      Relation.EqvGen.trans 0 3 1 h03 (Relation.EqvGen.symm 1 3 h13)⟩

/-- Witness for C2: the transitivity part applied to the move chain. -/
theorem claim_C2_witness :
    1 ∈ find_escaping_locals chain_mir ↔ 3 ∈ find_escaping_locals chain_mir :=
  claim_C2.2.1 chain_mir (by decide) (by decide) (by decide)

/-- C4: two procedures with the same declared slots and the same multiset
of assignment statements, in any arrangement within or across blocks,
yield the identical escaping list. -/
theorem claim_C4 (m1 m2 : Mir)
    (hn : m1.local_decls = m2.local_decls)
    (hp : ((all_statements m1).filter is_assign).Perm
        ((all_statements m2).filter is_assign)) :
    find_escaping_locals m1 = find_escaping_locals m2 := by
  have hmem : ∀ p : Nat × Nat, p ∈ mir_pairs m1 ↔ p ∈ mir_pairs m2 :=
    fun p => ⟨fun h => mem_pairs_of_perm hp h, fun h => mem_pairs_of_perm hp.symm h⟩
  have hker : ∀ x y : Nat,
      (visit_mir m1 x = visit_mir m1 y ↔ visit_mir m2 x = visit_mir m2 y) := by
    intro x y
    rw [visit_mir_ker, visit_mir_ker]
    constructor
    · exact fun h => Relation.EqvGen.mono (fun a b hab => (hmem (a, b)).mp hab) h
    · exact fun h => Relation.EqvGen.mono (fun a b hab => (hmem (a, b)).mpr hab) h
  simp only [find_escaping_locals, hn]
  apply List.filter_congr
  intro x hx
  simp only [unioned]
  rw [decide_eq_decide.mpr (hker 0 x)]

/-- Two statement arrangements of the same two assignments, over three
slots; the second also holds a non-assignment statement. -/
def perm_mir_a : Mir :=
  ⟨3, [[Statement.Assign (Place.Local 0) (Rvalue.Use (Operand.Move (Place.Local 1))),
        Statement.Assign (Place.Local 1) (Rvalue.Use (Operand.Move (Place.Local 2)))],
       []]⟩

/-- The same assignments as `perm_mir_a`, reordered across blocks. -/
def perm_mir_b : Mir :=
  ⟨3, [[Statement.Assign (Place.Local 1) (Rvalue.Use (Operand.Move (Place.Local 2)))],
       [Statement.OtherStmt,
        Statement.Assign (Place.Local 0) (Rvalue.Use (Operand.Move (Place.Local 1)))]]⟩

/-- Witness for C4 on a concrete reordering. -/
theorem claim_C4_witness :
    find_escaping_locals perm_mir_a = find_escaping_locals perm_mir_b :=
  claim_C4 perm_mir_a perm_mir_b (by decide) (by decide)

/-- C7: the analysis is total (it is a Lean function) and returns the
empty sequence for a procedure declaring only the return slot, as well as
for one whose assignments all have unresolvable destinations. -/
theorem claim_C7 (mir : Mir)
    (h : mir.local_decls = 1 ∨
      ∀ place rvalue, Statement.Assign place rvalue ∈ all_statements mir →
        find_local_in_place place = none) :
    find_escaping_locals mir = [] := by
  rw [List.eq_nil_iff_forall_not_mem]
  intro l hl
  rcases (mem_find_escaping_locals mir l).mp hl with ⟨hln, hl0, hEqv⟩
  rcases h with h1 | h1
  · rw [h1] at hln
    exact hl0 (Nat.lt_one_iff.mp hln)
  · have hno : ∀ a b : Nat, ¬ pair_rel mir a b := by
      intro a b hab
      simp only [pair_rel, mir_pairs] at hab
      rcases List.mem_flatMap.mp hab with ⟨s, hs, hps⟩
      cases s with
      | Assign place rvalue =>
        have hplace := h1 place rvalue hs
        simp only [statement_pairs, hplace] at hps
        rcases List.mem_flatMap.mp hps with ⟨s2, hs2, hmem2⟩
        cases s2 <;> simp [union_pair] at hmem2
      | OtherStmt => simp [statement_pairs] at hps
    exact hl0 ((eqvGen_eq_of_no_rel hno 0 l hEqv).symm)

/-- A procedure declaring only the return slot. -/
def ret_mir : Mir :=
  ⟨1, [[Statement.Assign (Place.Local 0) (Rvalue.Use (Operand.Move (Place.Local 0)))]]⟩

/-- Witness for C7 on the return-slot-only procedure. -/
theorem claim_C7_witness : find_escaping_locals ret_mir = [] :=
  claim_C7 ret_mir (Or.inl rfl)

/-- C10: converting a slot index into a union-find key succeeds for every
index strictly below `u32::MAX`, and on a well-formed procedure whose
declared slots all lie below `u32::MAX` every conversion the analysis
performs succeeds. -/
theorem claim_C10 :
    (∀ i, i < u32_max → assigned_local_from i = some i) ∧
    (∀ mir : Mir, mir_wf mir = true → mir.local_decls ≤ u32_max →
      ∀ l ∈ converted_locals mir, assigned_local_from l = some l) := by
  constructor
  · intro i hi
    simp [assigned_local_from, hi]
  · intro mir hwf hn l hl
    simp only [mir_wf] at hwf
    simp only [converted_locals] at hl
    have hlt : l < u32_max := by
      rcases List.mem_append.mp hl with h | h
      · rcases List.mem_flatMap.mp h with ⟨p, hp, hmem⟩
        have hb := List.all_eq_true.mp hwf p hp
        simp only [Bool.and_eq_true, decide_eq_true_eq] at hb
        rcases List.mem_cons.mp hmem with rfl | hmem2
        · omega
        · rcases List.mem_cons.mp hmem2 with rfl | hmem3
          · omega
          · exact absurd hmem3 (List.not_mem_nil _)
      · have hr := (List.mem_filter.mp h).1
        rw [List.mem_range] at hr
        omega
    simp [assigned_local_from, hlt]

/-- A small well-formed procedure exercising the key conversions. -/
def conv_mir : Mir :=
  ⟨2, [[Statement.Assign (Place.Local 0) (Rvalue.Use (Operand.Move (Place.Local 1)))]]⟩

/-- Witness for C10 at concrete inputs. -/
theorem claim_C10_witness :
    assigned_local_from 7 = some 7 ∧ assigned_local_from 1 = some 1 :=
  ⟨claim_C10.1 7 (by decide),
   claim_C10.2 conv_mir (by decide) (by decide) 1 (by decide)⟩

end EscapingLocals
